import Mathlib

/-!
Shallow embedding of the prolame parsing library (`parser.py`).

`parser.py` lexes a source string with Ply-style maximal-munch token rules and
parses it with a yacc grammar whose reduction actions populate a global
program store (declared predicate arities, facts, rules, queries).  The
embedding below models:

* the lexer (`lexStep` / `lexAux` / `lexer`), one Lean branch per Ply token
  rule, including the reclassification of the identifier text `not` into the
  negation-keyword token (`t_IDENT`);
* the grammar engine as a deterministic recursive-descent parser that realises
  the yacc grammar together with its declared precedence table
  `(('left', PLUS, MINUS, MOD, TIMES))` — a single tier, all left-associative,
  so `var_expr` chains fold to the left (`parseVarExprLoop`) — and yacc's
  default shift resolution of the fact/predicate conflict on `PERIOD`
  (a top-level `[not] ident ( params )` followed by `.` is a fact, followed
  by `:-` is a rule);
* the reduction actions exactly as written in the source: `p_var_expr` builds
  the Python 3-tuple `(p[1], p[2], p[3])`, `p_params` appends on the right,
  `p_antecedents` copies the tail list and appends the head predicate at the
  end, `p_fact` / `p_predicate` build `(±1, name, params)`, `p_declaration`
  stores `int(p[2])` into the `predicates` dict (Python dict update:
  value replaced in place for an existing key, new keys appended);
* the store `Program` with its `arithmetics` table, where Python's integer
  `%` is floor-division remainder (`Int.fmod`) and `int(x * y)` on integers
  is `x * y`; division by zero raises in Python and is modelled as `none`.

A failed lex or parse calls `exit` in the source; it is modelled as `none`.
The parser is written with explicit fuel (any amount of fuel at least the
token count behaves identically, since each step consumes at least one token).
-/

namespace Prolame

/-- Token kinds of the lexer, one per entry of `tokens` in `parser.py`.
`var`, `num` and `ident` carry the matched text (the Ply token value). -/
inductive Tok where
  | lparen
  | rparen
  | period
  | comma
  | question
  | plus
  | minus
  | times
  | mod
  | not
  | entailed
  | var (s : String)
  | num (s : String)
  | ident (s : String)
  deriving DecidableEq, Repr

/-- ASCII lowercase test, as used by the regex `[a-z]` of `t_IDENT`. -/
def isLowerA (c : Char) : Bool := 97 ≤ c.toNat && c.toNat ≤ 122

/-- ASCII uppercase test, as used by the regex `[A-Z]` of `t_VAR`. -/
def isUpperA (c : Char) : Bool := 65 ≤ c.toNat && c.toNat ≤ 90

/-- ASCII digit test, as used by the regex `\d` of `t_NUMBER`. -/
def isDigitA (c : Char) : Bool := 48 ≤ c.toNat && c.toNat ≤ 57

/-- Continuation characters of identifiers and variables:
`[a-zA-Z0-9_]` in `t_IDENT` / `t_VAR`. -/
def isIdentChar (c : Char) : Bool := isLowerA c || isUpperA c || isDigitA c || c == '_'

/-- The reclassification in `t_IDENT`: a lowercase identifier whose exact
text is `not` becomes the negation-keyword token, all others stay
identifier tokens. -/
def identTok (s : String) : Tok :=
  if s = "not" then Tok.not else Tok.ident s

/-- Classification of the character that starts the next token, one branch
per Ply lexer rule: whitespace/newline skipping (`t_ignore`, `t_newline`),
identifier start (`t_IDENT`), variable start (`t_VAR`), number start
(`t_NUMBER`), the single-character literal tokens, the `:` that can only
start the two-character `:-` entailment token, and the fatal-error class
for every other character (`t_error`). -/
inductive CharClass where
  | ws
  | lower
  | upper
  | digit
  | single (t : Tok)
  | colon
  | bad

/-- The nine single-character literal token rules
(`t_LPAREN` … `t_MOD`), as character/token pairs. -/
def singleToks : List (Char × Tok) :=
  [('(', Tok.lparen), (')', Tok.rparen), ('.', Tok.period), (',', Tok.comma),
   ('?', Tok.question), ('+', Tok.plus), ('-', Tok.minus), ('*', Tok.times),
   ('%', Tok.mod)]

/-- The single-character token (if any) for a character. -/
def singleLookup (c : Char) : Option Tok :=
  (singleToks.find? (fun p => p.1 == c)).map Prod.snd

/-- Decide which lexer rule applies to a leading character: whitespace and
newline first, then identifier/variable/number starts, then the
single-character literals, then the `:` of `:-`; everything else is a
lexical error. -/
def classify (c : Char) : CharClass :=
  match c == ' ' || c == '\t' || c == '\n', isLowerA c, isUpperA c, isDigitA c,
        singleLookup c, c == ':' with
  | true, _, _, _, _, _ => CharClass.ws
  | false, true, _, _, _, _ => CharClass.lower
  | false, false, true, _, _, _ => CharClass.upper
  | false, false, false, true, _, _ => CharClass.digit
  | false, false, false, false, some t, _ => CharClass.single t
  | false, false, false, false, none, true => CharClass.colon
  | false, false, false, false, none, false => CharClass.bad

/-- After a leading `:` only `-` may follow, completing the two-character
`:-` entailment token; anything else matches no lexer rule. -/
def colonStep : List Char → Option (Option Tok × List Char)
  | '-' :: cs' => some (some Tok.entailed, cs')
  | _ => none

/-- One lexer step on a non-empty character list: produces either a token, or
no token for skipped whitespace/newlines, together with the remaining input;
`none` is the fatal lexical error (`t_error` exits the process).  The branches
mirror the Ply rules: maximal-munch identifier/variable/number runs, the
reclassification of the exact text `not` into the negation-keyword token
inside `t_IDENT`, the single-character literal tokens, and the two-character
`:-` entailment token (a `:` not followed by `-` matches no rule). -/
def lexStep : List Char → Option (Option Tok × List Char)
  | [] => none
  | c :: cs =>
    match classify c with
    | CharClass.ws => some (none, cs)
    | CharClass.lower =>
      some (some (identTok (String.mk (c :: (List.span isIdentChar cs).1))),
            (List.span isIdentChar cs).2)
    | CharClass.upper =>
      some (some (Tok.var (String.mk (c :: (List.span isIdentChar cs).1))),
            (List.span isIdentChar cs).2)
    | CharClass.digit =>
      some (some (Tok.num (String.mk (c :: (List.span isDigitA cs).1))),
            (List.span isDigitA cs).2)
    | CharClass.single t => some (some t, cs)
    | CharClass.colon => colonStep cs
    | CharClass.bad => none

/-- Fuelled driver of the lexer: repeatedly applies `lexStep` until the input
is exhausted.  Each step consumes at least one character, so any fuel of at
least `length + 1` is enough. -/
def lexAux : Nat → List Char → Option (List Tok)
  | 0, _ => none
  | _ + 1, [] => some []
  | fuel + 1, c :: cs =>
    match lexStep (c :: cs) with
    | some (some t, rest) => (lexAux fuel rest).map (fun ts => t :: ts)
    | some (none, rest) => lexAux fuel rest
    | none => none

/-- The lexer: tokenizes a whole source string (`lex.lex()` + `lexer.input`). -/
def lexer (s : String) : Option (List Tok) :=
  lexAux (s.toList.length + 1) s.toList

/-- Parsed terms.  Python represents them as strings (variable names),
integers (converted number literals) and nested 3-tuples built by
`p_var_expr`; the three constructors mirror exactly that value space,
with `tup` keeping the three components in their positional order. -/
inductive Term where
  | str (s : String)
  | int (n : Int)
  | tup (a b c : Term)
  deriving DecidableEq, Repr

/-- A literal `(sign, name, args)` as built by `p_fact` / `p_predicate`. -/
abbrev Lit := Int × String × List Term

/-- Python's `str.isdigit` on the token texts that occur here:
non-empty and all ASCII digits. -/
def isDigitStr (s : String) : Bool := s != "" && s.toList.all isDigitA

/-- Python's `int` on a digit string. -/
def strToNat (s : String) : Nat :=
  s.toList.foldl (fun a c => 10 * a + (c.toNat - 48)) 0

/-- The `p_var_expr` base action on a `VAR` or `NUMBER` token value:
`p[0] = p[1]; if p[0].isdigit(): p[0] = int(p[0])`. -/
def varExprAtom (s : String) : Term :=
  if isDigitStr s then Term.int (Int.ofNat (strToNat s)) else Term.str s

/-- The token value of a `VAR` or `NUMBER` token (the only atoms of
`var_expr`), `none` for every other token. -/
def atomVal : Tok → Option String
  | Tok.var s => some s
  | Tok.num s => some s
  | _ => none

/-- The token value (matched text) of the four arithmetic operator tokens,
`none` for every other token. -/
def opSym : Tok → Option String
  | Tok.plus => some "+"
  | Tok.minus => some "-"
  | Tok.mod => some "%"
  | Tok.times => some "*"
  | _ => none

/-- Parse one `var_expr` atom (`VAR` or `NUMBER`). -/
def parseAtom : List Tok → Option (Term × List Tok)
  | [] => none
  | t :: rest =>
    match atomVal t with
    | some s => some (varExprAtom s, rest)
    | none => none

/-- The `var_expr` operator chain under the source's precedence declaration
`('left', PLUS, MINUS, MOD, TIMES)`: one tier, left-associative, so yacc
reduces before every shift and the chain folds to the left.  Each step wraps
the accumulated term as `(p[1], p[2], p[3])` — the Python tuple of
`p_var_expr`, left operand first, operator symbol second, right operand
third — stopping at the first token that is not an arithmetic operator
followed by an atom. -/
def parseVarExprLoop : Term → List Tok → Term × List Tok
  | acc, [] => (acc, [])
  | acc, t :: rest =>
    match opSym t with
    | none => (acc, t :: rest)
    | some o =>
      match rest with
      | [] => (acc, t :: rest)
      | a :: rest' =>
        match atomVal a with
        | some s => parseVarExprLoop (Term.tup acc (Term.str o) (varExprAtom s)) rest'
        | none => (acc, t :: rest)

/-- Parse a full `var_expr`. -/
def parseVarExpr (toks : List Tok) : Option (Term × List Tok) :=
  match parseAtom toks with
  | some (t, rest) => some (parseVarExprLoop t rest)
  | none => none

/-- The left-recursive tail of `params` (`params : params COMMA var_expr`):
`p_params` appends the new term on the right, `p[0] = p[1] + [p[3]]`, so
parameters stay in source order. -/
def parseParamsAux : Nat → List Term → List Tok → Option (List Term × List Tok)
  | 0, _, _ => none
  | fuel + 1, acc, toks =>
    match toks.head? with
    | some Tok.comma =>
      (match parseVarExpr toks.tail with
       | some (t, rest') => parseParamsAux fuel (acc ++ [t]) rest'
       | none => none)
    | _ => some (acc, toks)

/-- Parse `params : var_expr | params COMMA var_expr` — at least one
`var_expr` is required by the grammar. -/
def parseParams (fuel : Nat) (toks : List Tok) : Option (List Term × List Tok) :=
  match parseVarExpr toks with
  | some (t, rest) => parseParamsAux fuel [t] rest
  | none => none

/-- Parse `predicate : IDENT LPAREN params RPAREN | NOT IDENT LPAREN params
RPAREN`; the action `p_predicate` builds `(-1, p[2], p[4])` for the negated
form and `(1, p[1], p[3])` otherwise. -/
def parsePredicate (fuel : Nat) (toks : List Tok) : Option (Lit × List Tok) :=
  match toks.head?, toks.tail.head?, toks.tail.tail.head? with
  | some Tok.not, some (Tok.ident name), some Tok.lparen =>
    (match parseParams fuel (toks.drop 3) with
     | some (ps, Tok.rparen :: rest') => some (((-1 : Int), name, ps), rest')
     | _ => none)
  | some (Tok.ident name), some Tok.lparen, _ =>
    (match parseParams fuel (toks.drop 2) with
     | some (ps, Tok.rparen :: rest') => some (((1 : Int), name, ps), rest')
     | _ => none)
  | _, _, _ => none

/-- Parse the right-recursive `antecedents : predicate | predicate COMMA
antecedents`.  The action `p_antecedents` copies the already-reduced tail
list and then APPENDS the head predicate at the end
(`ret = p[3][:]; ret.append(p[1])`), i.e. `tail ++ [head]`. -/
def parseAntecedents : Nat → List Tok → Option (List Lit × List Tok)
  | 0, _ => none
  | fuel + 1, toks =>
    match parsePredicate (toks.length + 1) toks with
    | some (pr, Tok.comma :: rest) =>
      (match parseAntecedents fuel rest with
       | some (tail, rest') => some (tail ++ [pr], rest')
       | none => none)
    | some (pr, rest) => some ([pr], rest)
    | none => none

/-- The global program store: the class attributes of `class Program` that
the grammar actions mutate.  Python's dict is modelled as an
insertion-ordered association list with unique keys (`dictInsert`). -/
structure Program where
  predicates : List (String × Nat) := []
  rules : List (Lit × List Lit) := []
  facts : List Lit := []
  queries : List (String × List Term) := []
  next_variable : Nat := 1
  deriving DecidableEq, Repr

/-- Python dict assignment `d[k] = v`: replace the value in place if the key
is present (keeping its position), otherwise append the new binding. -/
def dictInsert (k : String) (v : Nat) : List (String × Nat) → List (String × Nat)
  | [] => [(k, v)]
  | (k', v') :: rest => if k' = k then (k, v) :: rest else (k', v') :: dictInsert k v rest

/-- Python dict lookup `d[k]` (first — and, with unique keys, only —
binding of `k`). -/
def dictGet (k : String) : List (String × Nat) → Option Nat
  | [] => none
  | (k', v) :: rest => if k' = k then some v else dictGet k rest

/-- `Program.next_var`: return the current counter value and increment it. -/
def nextVar (s : Program) : Nat × Program :=
  (s.next_variable, { s with next_variable := s.next_variable + 1 })

/-- The `Program.arithmetics` table: operator symbol to binary integer
function.  Python's `%` on integers is the floor-division remainder
(`Int.fmod`), raising on a zero divisor (modelled as `none`); `int(x * y)`
on integers is just `x * y`. -/
def Program.arithmetics (op : String) : Option (Int → Int → Option Int) :=
  if op = "+" then some (fun x y => some (x + y))
  else if op = "-" then some (fun x y => some (x - y))
  else if op = "%" then some (fun x y => if y = 0 then none else some (Int.fmod x y))
  else if op = "*" then some (fun x y => some (x * y))
  else none

/-- Look up an operator in `Program.arithmetics` and apply it. -/
def applyArith (op : String) (x y : Int) : Option Int :=
  match Program.arithmetics op with
  | some f => f x y
  | none => none

/-- Parse a single top-level clause (one `declaration`, `fact`, `rule` or
`query`) and perform its reduction action on the store.  The dispatch mirrors
the LALR automaton: after `?` only `QUESTION IDENT LPAREN params RPAREN
PERIOD` is viable; `IDENT NUMBER PERIOD` is a declaration; otherwise a
`[NOT] IDENT LPAREN params RPAREN` prefix is parsed and the lookahead decides
— `PERIOD` shifts into the `fact` production (yacc's default resolution of
the shift/reduce conflict with reducing `predicate`), `ENTAILED` continues
the `rule` production. -/
def parseClause (st : Program) (toks : List Tok) : Option (Program × List Tok) :=
  match toks.head?, toks.tail.head?, toks.tail.tail.head? with
  | some Tok.question, some (Tok.ident name), some Tok.lparen =>
    (match parseParams ((toks.drop 3).length + 1) (toks.drop 3) with
     | some (ps, Tok.rparen :: Tok.period :: rest') =>
       some ({ st with queries := st.queries ++ [(name, ps)] }, rest')
     | _ => none)
  | some Tok.question, _, _ => none
  | some (Tok.ident name), some (Tok.num n), some Tok.period =>
    some ({ st with predicates := dictInsert name (strToNat n) st.predicates },
          toks.drop 3)
  | some (Tok.ident _), some (Tok.num _), _ => none
  | _, _, _ =>
    match parsePredicate (toks.length + 1) toks with
    | some (l, Tok.period :: rest) =>
      some ({ st with facts := st.facts ++ [l] }, rest)
    | some (l, Tok.entailed :: rest) =>
      (match parseAntecedents (rest.length + 1) rest with
       | some (ants, Tok.period :: rest') =>
         some ({ st with rules := st.rules ++ [(l, ants)] }, rest')
       | _ => none)
    | _ => none

/-- The `program` production: zero or more clauses until the token stream is
exhausted (the empty program is accepted). -/
def parseClauses : Nat → Program → List Tok → Option Program
  | 0, _, _ => none
  | _ + 1, st, [] => some st
  | fuel + 1, st, t :: ts =>
    match parseClause st (t :: ts) with
    | some (st', rest) => parseClauses fuel st' rest
    | none => none

/-- `parseProgram`: lex the source text and run the grammar over it, starting
from the given store.  The source function performs no reset, so parsing
always accumulates onto whatever the store already contains. -/
def parseProgram (text : String) (st : Program) : Option Program :=
  match lexer text with
  | some toks => parseClauses (toks.length + 1) st toks
  | none => none

/-! ### Invariant predicates used by the theorems -/

/-- A token list none of whose identifier tokens carries the text `not`
(the lexer guarantees this for every token list it produces). -/
def identOk (toks : List Tok) : Prop := ∀ s, Tok.ident s ∈ toks → s ≠ "not"

/-- A literal whose sign is `±1` and whose argument list is non-empty. -/
def signArgsOk (l : Lit) : Prop := (l.1 = 1 ∨ l.1 = -1) ∧ l.2.2 ≠ []

/-- Every stored fact, rule consequent, rule antecedent has sign `±1` and a
non-empty argument list, and every stored query has non-empty arguments. -/
def storeShapeOk (s : Program) : Prop :=
  (∀ l ∈ s.facts, signArgsOk l) ∧
  (∀ r ∈ s.rules, signArgsOk r.1 ∧ ∀ l ∈ r.2, signArgsOk l) ∧
  (∀ q ∈ s.queries, q.2 ≠ [])

/-- No stored fact, rule consequent, rule antecedent or query is named
`not`. -/
def noNotNames (s : Program) : Prop :=
  (∀ l ∈ s.facts, l.2.1 ≠ "not") ∧
  (∀ r ∈ s.rules, r.1.2.1 ≠ "not" ∧ ∀ l ∈ r.2, l.2.1 ≠ "not") ∧
  (∀ q ∈ s.queries, q.1 ≠ "not")

/-- The four operator symbols of `var_expr`. -/
def opSyms : List String := ["+", "-", "%", "*"]

/-- Checks recursively that every tuple node of a Term is
`(left, operator, right)`: an operator symbol sits in the middle position
and the outer positions are themselves well-placed Terms — the layout of
the Python tuple `(p[1], p[2], p[3])` built by `p_var_expr`. -/
def midOpB : Term → Bool
  | Term.str _ => true
  | Term.int _ => true
  | Term.tup l (Term.str o) r => opSyms.contains o && midOpB l && midOpB r
  | Term.tup _ _ _ => false

/-- The token of an operator symbol. -/
def opTok (o : String) : Tok :=
  if o = "+" then Tok.plus
  else if o = "-" then Tok.minus
  else if o = "%" then Tok.mod
  else Tok.times

/-- Tokens of an operator/variable chain tail `op1 v1 op2 v2 …`. -/
def chainTail : List (String × String) → List Tok
  | [] => []
  | p :: ps => opTok p.1 :: Tok.var p.2 :: chainTail ps

/-- Tokens of a full `var_expr` chain `x op1 v1 op2 v2 …`. -/
def chainToks (x : String) (ps : List (String × String)) : List Tok :=
  Tok.var x :: chainTail ps

/-- Tokens of a one-argument predicate application `name(X)`. -/
def litToks (name : String) : List Tok :=
  [Tok.ident name, Tok.lparen, Tok.var "X", Tok.rparen]

/-- The literal that `p_predicate` builds for `name(X)`. -/
def mkLit (name : String) : Lit := (1, name, [Term.str "X"])

/-- Tokens of a comma-separated antecedent list `n1(X), n2(X), …`. -/
def antesToks : List String → List Tok
  | [] => []
  | [n] => litToks n
  | n :: rest => litToks n ++ Tok.comma :: antesToks rest

/-- The empty store satisfies the shape invariant. -/
lemma storeShapeOk_empty : storeShapeOk {} := by
  refine ⟨?_, ?_, ?_⟩ <;> intro x hx <;> simp [Program.facts, Program.rules, Program.queries] at hx

/-- The empty store has no stored names at all. -/
lemma noNotNames_empty : noNotNames {} := by
  refine ⟨?_, ?_, ?_⟩ <;> intro x hx <;> simp [Program.facts, Program.rules, Program.queries] at hx

/-! ### Dictionary lemmas (Python dict semantics) -/

/-- Updating a key and reading it back yields the updated value:
the most recent write wins. -/
lemma dictGet_dictInsert_self (k : String) (v : Nat) (d : List (String × Nat)) :
    dictGet k (dictInsert k v d) = some v := by
  induction d with
  | nil => simp [dictInsert, dictGet]
  | cons p rest ih =>
    obtain ⟨k', v'⟩ := p
    by_cases hk : k' = k
    · simp [dictInsert, dictGet, hk]
    · simp [dictInsert, dictGet, hk, ih]

/-- Updating one key leaves every other key's value unchanged. -/
lemma dictGet_dictInsert_ne (k k' : String) (v : Nat) (d : List (String × Nat))
    (h : k' ≠ k) : dictGet k' (dictInsert k v d) = dictGet k' d := by
  induction d with
  | nil => simp [dictInsert, dictGet, Ne.symm h]
  | cons p rest ih =>
    obtain ⟨k0, v0⟩ := p
    by_cases hk : k0 = k
    · subst hk
      simp [dictInsert, dictGet, Ne.symm h]
    · by_cases hk' : k0 = k'
      · subst hk'
        simp [dictInsert, dictGet, hk]
      · simp [dictInsert, dictGet, hk, hk', ih]

/-- Keys of an updated dict: each key either was present or is the updated
one. -/
lemma mem_dictInsert_keys {x k : String} {v : Nat} {d : List (String × Nat)}
    (h : x ∈ (dictInsert k v d).map Prod.fst) : x ∈ d.map Prod.fst ∨ x = k := by
  induction d with
  | nil =>
    simp [dictInsert] at h
    exact Or.inr h
  | cons p rest ih =>
    obtain ⟨k0, v0⟩ := p
    by_cases hk : k0 = k
    · rw [dictInsert, if_pos hk, List.map_cons] at h
      rw [List.map_cons]
      rcases List.mem_cons.mp h with h1 | h1
      · exact Or.inr h1
      · exact Or.inl (List.mem_cons_of_mem _ h1)
    · rw [dictInsert, if_neg hk, List.map_cons] at h
      rw [List.map_cons]
      rcases List.mem_cons.mp h with h1 | h1
      · exact Or.inl (List.mem_cons.mpr (Or.inl h1))
      · rcases ih h1 with h2 | h2
        · exact Or.inl (List.mem_cons_of_mem _ h2)
        · exact Or.inr h2

/-- A dict update preserves uniqueness of keys. -/
lemma dictInsert_nodup (k : String) (v : Nat) (d : List (String × Nat))
    (h : (d.map Prod.fst).Nodup) : ((dictInsert k v d).map Prod.fst).Nodup := by
  induction d with
  | nil => simp [dictInsert]
  | cons p rest ih =>
    obtain ⟨k0, v0⟩ := p
    simp only [List.map_cons, List.nodup_cons] at h
    by_cases hk : k0 = k
    · subst hk
      simpa [dictInsert] using h
    · simp only [dictInsert, hk, if_false, List.map_cons, List.nodup_cons]
      refine ⟨?_, ih h.2⟩
      intro hmem
      rcases mem_dictInsert_keys hmem with h1 | h1
      · exact h.1 h1
      · exact hk h1

/-! ### Lexer lemmas -/

/-- The reclassification never leaves an identifier token with text `not`. -/
lemma identTok_ident {u s : String} (h : identTok u = Tok.ident s) : s ≠ "not" := by
  unfold identTok at h
  split_ifs at h with h1
  injection h with h2
  subst h2
  exact h1

/-- The single-character token table never yields an identifier token. -/
lemma singleLookup_ident {c : Char} {s : String}
    (h : singleLookup c = some (Tok.ident s)) : False := by
  unfold singleLookup at h
  rcases Option.map_eq_some'.mp h with ⟨p, hp, hps⟩
  have hmem := List.mem_of_find?_eq_some hp
  simp only [singleToks, List.mem_cons, List.not_mem_nil, or_false] at hmem
  rcases hmem with rfl | rfl | rfl | rfl | rfl | rfl | rfl | rfl | rfl <;> cases hps

/-- `classify` never yields a single-character identifier token. -/
lemma classify_single_ident {c : Char} {s : String}
    (h : classify c = CharClass.single (Tok.ident s)) : False := by
  unfold classify at h
  split at h
  all_goals cases h
  exact singleLookup_ident (by assumption)

/-- A single lexer step never emits an identifier token whose text is `not`:
`t_IDENT` reclassifies that text into the negation-keyword token. -/
lemma lexStep_ident {cs rest : List Char} {s : String}
    (h : lexStep cs = some (some (Tok.ident s), rest)) : s ≠ "not" := by
  cases cs with
  | nil => exact absurd h (by simp [lexStep])
  | cons c cs' =>
    rw [lexStep] at h
    split at h
    · simp at h
    · simp only [Option.some.injEq, Prod.mk.injEq] at h
      exact identTok_ident h.1
    · simp at h
    · simp at h
    · simp only [Option.some.injEq, Prod.mk.injEq] at h
      obtain ⟨h1, -⟩ := h
      subst h1
      exact (classify_single_ident (by assumption)).elim
    · unfold colonStep at h
      split at h <;> simp at h
    · simp at h

/-- No identifier token produced by the lexer driver has the text `not`. -/
lemma lexAux_identOk : ∀ (fuel : Nat) (cs : List Char) (toks : List Tok),
    lexAux fuel cs = some toks → identOk toks := by
  intro fuel
  induction fuel with
  | zero => intro cs toks h; simp [lexAux] at h
  | succ f ih =>
    intro cs toks h
    cases cs with
    | nil =>
      rw [lexAux] at h
      obtain rfl : ([] : List Tok) = toks := by simpa using h
      intro s hs
      simp at hs
    | cons c cs' =>
      rw [lexAux] at h
      split at h
      next t rest heq =>
        rcases Option.map_eq_some'.mp h with ⟨ts, hts, rfl⟩
        intro s hs
        rcases List.mem_cons.mp hs with h1 | h1
        · subst h1
          exact lexStep_ident heq
        · exact ih rest ts hts s h1
      next rest heq => exact ih rest toks h
      next => simp at h

/-- No identifier token produced by `lexer` has the text `not`. -/
lemma lexer_identOk {s : String} {toks : List Tok}
    (h : lexer s = some toks) : identOk toks :=
  lexAux_identOk _ _ _ h

/-! ### Parser lemmas: remaining tokens come from the input, and the values
built by the reduction actions have the expected shape -/

/-- Membership in a tail extends to the whole list. -/
lemma mem_tail_mem {x : Tok} {l : List Tok} (h : x ∈ l.tail) : x ∈ l := by
  cases l with
  | nil => exact absurd h (by simp)
  | cons a as => exact List.mem_cons_of_mem _ h

/-- The optional head of a list, when present, is a member. -/
lemma head?_mem {x : Tok} {l : List Tok} (h : l.head? = some x) : x ∈ l := by
  cases l with
  | nil => simp at h
  | cons a as =>
    simp only [List.head?_cons, Option.some.injEq] at h
    rw [← h]
    exact List.mem_cons_self a as

/-- Members of a dropped list are members of the original list. -/
lemma drop_mem {x : Tok} {n : Nat} {l : List Tok} (h : x ∈ l.drop n) : x ∈ l :=
  (List.drop_sublist n l).mem h

/-- `parseAtom` leaves a suffix of its input. -/
lemma parseAtom_sub {toks : List Tok} {t : Term} {rest : List Tok}
    (h : parseAtom toks = some (t, rest)) : ∀ x ∈ rest, x ∈ toks := by
  cases toks with
  | nil => exact absurd h (by simp [parseAtom])
  | cons a as =>
    rw [parseAtom] at h
    split at h
    · simp only [Option.some.injEq, Prod.mk.injEq] at h
      obtain ⟨-, h2⟩ := h
      subst h2
      intro x hx
      exact List.mem_cons_of_mem _ hx
    · exact absurd h (by simp)

/-- The operator-chain loop leaves a sub-multiset of its input tokens. -/
lemma parseVarExprLoop_sub : ∀ (acc : Term) (toks : List Tok),
    ∀ x ∈ (parseVarExprLoop acc toks).2, x ∈ toks := by
  intro acc toks
  induction acc, toks using parseVarExprLoop.induct with
  | case1 acc => simp [parseVarExprLoop]
  | case2 acc t rest ho => simp [parseVarExprLoop, ho]
  | case3 acc t o ho => simp [parseVarExprLoop, ho]
  | case4 acc t o ho a rest' s ha ih =>
    simp only [parseVarExprLoop, ho, ha]
    intro x hx
    exact List.mem_cons_of_mem _ (List.mem_cons_of_mem _ (ih x hx))
  | case5 acc t o ho a rest' ha => simp [parseVarExprLoop, ho, ha]

/-- `parseVarExpr` leaves a sub-multiset of its input tokens. -/
lemma parseVarExpr_sub {toks : List Tok} {t : Term} {rest : List Tok}
    (h : parseVarExpr toks = some (t, rest)) : ∀ x ∈ rest, x ∈ toks := by
  unfold parseVarExpr at h
  split at h
  next t0 rest0 heq =>
    simp only [Option.some.injEq] at h
    intro x hx
    have hx' : x ∈ (parseVarExprLoop t0 rest0).2 := by rw [h]; exact hx
    exact parseAtom_sub heq x (parseVarExprLoop_sub t0 rest0 x hx')
  next => exact absurd h (by simp)

/-- The `params` tail loop leaves a sub-multiset of its input tokens. -/
lemma parseParamsAux_sub : ∀ (fuel : Nat) (acc : List Term) (toks : List Tok)
    (ps : List Term) (rest : List Tok),
    parseParamsAux fuel acc toks = some (ps, rest) → ∀ x ∈ rest, x ∈ toks := by
  intro fuel
  induction fuel with
  | zero => intro acc toks ps rest h; exact absurd h (by simp [parseParamsAux])
  | succ f ih =>
    intro acc toks ps rest h
    rw [parseParamsAux] at h
    split at h
    · split at h
      next t rest' heq =>
        intro x hx
        exact mem_tail_mem (parseVarExpr_sub heq x (ih _ _ _ _ h x hx))
      next => exact absurd h (by simp)
    · simp only [Option.some.injEq, Prod.mk.injEq] at h
      obtain ⟨-, h2⟩ := h
      subst h2
      exact fun x hx => hx

/-- The `params` loop only ever extends its accumulator on the right
(`p[0] = p[1] + [p[3]]`). -/
lemma parseParamsAux_acc : ∀ (fuel : Nat) (acc : List Term) (toks : List Tok)
    (ps : List Term) (rest : List Tok),
    parseParamsAux fuel acc toks = some (ps, rest) → ∃ l, ps = acc ++ l := by
  intro fuel
  induction fuel with
  | zero => intro acc toks ps rest h; exact absurd h (by simp [parseParamsAux])
  | succ f ih =>
    intro acc toks ps rest h
    rw [parseParamsAux] at h
    split at h
    · split at h
      next t rest' heq =>
        rcases ih _ _ _ _ h with ⟨l, hl⟩
        exact ⟨[t] ++ l, by rw [hl, List.append_assoc]⟩
      next => exact absurd h (by simp)
    · simp only [Option.some.injEq, Prod.mk.injEq] at h
      exact ⟨[], by rw [← h.1, List.append_nil]⟩

/-- A successful `params` reduction yields a non-empty parameter list and
leaves a sub-multiset of its input tokens. -/
lemma parseParams_shape {fuel : Nat} {toks : List Tok} {ps : List Term}
    {rest : List Tok} (h : parseParams fuel toks = some (ps, rest)) :
    ps ≠ [] ∧ ∀ x ∈ rest, x ∈ toks := by
  unfold parseParams at h
  split at h
  next t rest0 heq =>
    refine ⟨?_, ?_⟩
    · rcases parseParamsAux_acc _ _ _ _ _ h with ⟨l, hl⟩
      simp [hl]
    · intro x hx
      exact parseVarExpr_sub heq x (parseParamsAux_sub _ _ _ _ _ h x hx)
  next => exact absurd h (by simp)

/-- A successful `predicate` reduction yields a literal with sign `±1`, a
non-empty argument list and a name read from an identifier token of the
input, and leaves a sub-multiset of its input tokens. -/
lemma parsePredicate_shape {fuel : Nat} {toks : List Tok} {l : Lit}
    {rest : List Tok} (h : parsePredicate fuel toks = some (l, rest)) :
    (l.1 = 1 ∨ l.1 = -1) ∧ l.2.2 ≠ [] ∧ Tok.ident l.2.1 ∈ toks ∧
    ∀ x ∈ rest, x ∈ toks := by
  unfold parsePredicate at h
  split at h
  · next name h1 h2 h3 =>
      split at h
      next ps rest' heq =>
        simp only [Option.some.injEq, Prod.mk.injEq] at h
        obtain ⟨h4, h5⟩ := h
        subst h5
        rcases parseParams_shape heq with ⟨hne, hsub⟩
        rw [← h4]
        refine ⟨Or.inr rfl, hne, mem_tail_mem (head?_mem h2), ?_⟩
        intro x hx
        exact drop_mem (hsub x (List.mem_cons_of_mem _ hx))
      next => exact absurd h (by simp)
  · next x3 name h1 h2 =>
      split at h
      next ps rest' heq =>
        simp only [Option.some.injEq, Prod.mk.injEq] at h
        obtain ⟨h4, h5⟩ := h
        subst h5
        rcases parseParams_shape heq with ⟨hne, hsub⟩
        rw [← h4]
        refine ⟨Or.inl rfl, hne, head?_mem h1, ?_⟩
        intro x hx
        exact drop_mem (hsub x (List.mem_cons_of_mem _ hx))
      next => exact absurd h (by simp)
  · exact absurd h (by simp)

/-- A successful `antecedents` reduction yields literals that all have sign
`±1`, non-empty arguments and names read from identifier tokens of the input,
and leaves a sub-multiset of its input tokens. -/
lemma parseAntecedents_shape : ∀ (fuel : Nat) (toks : List Tok)
    (ants : List Lit) (rest : List Tok),
    parseAntecedents fuel toks = some (ants, rest) →
    (∀ l ∈ ants, (l.1 = 1 ∨ l.1 = -1) ∧ l.2.2 ≠ [] ∧ Tok.ident l.2.1 ∈ toks) ∧
    ∀ x ∈ rest, x ∈ toks := by
  intro fuel
  induction fuel with
  | zero => intro toks ants rest h; exact absurd h (by simp [parseAntecedents])
  | succ f ih =>
    intro toks ants rest h
    rw [parseAntecedents] at h
    split at h
    next pr rest0 heq =>
      split at h
      next tail rest' heq2 =>
        simp only [Option.some.injEq, Prod.mk.injEq] at h
        obtain ⟨h1, h2⟩ := h
        subst h2
        rcases parsePredicate_shape heq with ⟨hp1, hp2, hp3, hpsub⟩
        rcases ih _ _ _ heq2 with ⟨ht1, ht2⟩
        constructor
        · intro l hl
          rw [← h1] at hl
          rcases List.mem_append.mp hl with h3 | h3
          · rcases ht1 l h3 with ⟨q1, q2, q3⟩
            exact ⟨q1, q2, hpsub _ (List.mem_cons_of_mem _ q3)⟩
          · rw [List.mem_singleton.mp h3]
            exact ⟨hp1, hp2, hp3⟩
        · intro x hx
          exact hpsub x (List.mem_cons_of_mem _ (ht2 x hx))
      next => exact absurd h (by simp)
    next pr rest0 heq =>
      simp only [Option.some.injEq, Prod.mk.injEq] at h
      obtain ⟨h1, h2⟩ := h
      subst h2
      rcases parsePredicate_shape heq with ⟨hp1, hp2, hp3, hpsub⟩
      constructor
      · intro l hl
        rw [← h1] at hl
        rw [List.mem_singleton.mp hl]
        exact ⟨hp1, hp2, hp3⟩
      · exact hpsub
    next => exact absurd h (by simp)

/-! ### Store invariants over whole-clause and whole-program parsing -/

/-- One clause reduction: the remaining tokens come from the input; the
facts, rules and queries sequences are only ever appended to; appended
entries have sign `±1` and non-empty arguments; the predicates dict keeps
unique keys; and, when no input identifier token is `not`, no stored name
is `not`. -/
lemma parseClause_inv {st : Program} {toks : List Tok} {st2 : Program}
    {rest : List Tok} (h : parseClause st toks = some (st2, rest)) :
    (∀ x ∈ rest, x ∈ toks) ∧
    (∃ fs, st2.facts = st.facts ++ fs) ∧
    (∃ rs, st2.rules = st.rules ++ rs) ∧
    (∃ qs, st2.queries = st.queries ++ qs) ∧
    (storeShapeOk st → storeShapeOk st2) ∧
    ((st.predicates.map Prod.fst).Nodup → (st2.predicates.map Prod.fst).Nodup) ∧
    (identOk toks → noNotNames st → noNotNames st2) := by
  unfold parseClause at h
  split at h
  · next name h1 h2 h3 =>
      split at h
      next ps rest' heq =>
        simp only [Option.some.injEq, Prod.mk.injEq] at h
        obtain ⟨h4, h5⟩ := h
        subst h4
        subst h5
        rcases parseParams_shape heq with ⟨hne, hsub⟩
        refine ⟨?_, ⟨[], by simp⟩, ⟨[], by simp⟩, ⟨[(name, ps)], rfl⟩, ?_, fun hn => hn, ?_⟩
        · intro x hx
          exact drop_mem (hsub x (List.mem_cons_of_mem _ (List.mem_cons_of_mem _ hx)))
        · intro hs
          refine ⟨hs.1, hs.2.1, ?_⟩
          intro q hq
          rcases List.mem_append.mp hq with h6 | h6
          · exact hs.2.2 q h6
          · rw [List.mem_singleton.mp h6]
            exact hne
        · intro hid hnn
          refine ⟨hnn.1, hnn.2.1, ?_⟩
          intro q hq
          rcases List.mem_append.mp hq with h6 | h6
          · exact hnn.2.2 q h6
          · rw [List.mem_singleton.mp h6]
            exact hid name (mem_tail_mem (head?_mem h2))
      next => exact absurd h (by simp)
  · exact absurd h (by simp)
  · next name n h1 h2 h3 =>
      simp only [Option.some.injEq, Prod.mk.injEq] at h
      obtain ⟨h4, h5⟩ := h
      subst h4
      subst h5
      refine ⟨fun x hx => drop_mem hx, ⟨[], by simp⟩, ⟨[], by simp⟩, ⟨[], by simp⟩,
        fun hs => hs, ?_, fun _ hnn => hnn⟩
      intro hn
      exact dictInsert_nodup _ _ _ hn
  · exact absurd h (by simp)
  · split at h
    next l rest0 heq =>
      simp only [Option.some.injEq, Prod.mk.injEq] at h
      obtain ⟨h4, h5⟩ := h
      subst h4
      subst h5
      rcases parsePredicate_shape heq with ⟨hp1, hp2, hp3, hpsub⟩
      refine ⟨?_, ⟨[l], rfl⟩, ⟨[], by simp⟩, ⟨[], by simp⟩, ?_, fun hn => hn, ?_⟩
      · intro x hx
        exact hpsub x (List.mem_cons_of_mem _ hx)
      · intro hs
        refine ⟨?_, hs.2.1, hs.2.2⟩
        intro q hq
        rcases List.mem_append.mp hq with h6 | h6
        · exact hs.1 q h6
        · rw [List.mem_singleton.mp h6]
          exact ⟨hp1, hp2⟩
      · intro hid hnn
        refine ⟨?_, hnn.2.1, hnn.2.2⟩
        intro q hq
        rcases List.mem_append.mp hq with h6 | h6
        · exact hnn.1 q h6
        · rw [List.mem_singleton.mp h6]
          exact hid _ hp3
    next l rest0 heq =>
      split at h
      next ants rest' heq2 =>
        simp only [Option.some.injEq, Prod.mk.injEq] at h
        obtain ⟨h4, h5⟩ := h
        subst h4
        subst h5
        rcases parsePredicate_shape heq with ⟨hp1, hp2, hp3, hpsub⟩
        rcases parseAntecedents_shape _ _ _ _ heq2 with ⟨ha1, ha2⟩
        refine ⟨?_, ⟨[], by simp⟩, ⟨[(l, ants)], rfl⟩, ⟨[], by simp⟩, ?_, fun hn => hn, ?_⟩
        · intro x hx
          exact hpsub x (List.mem_cons_of_mem _ (ha2 x (List.mem_cons_of_mem _ hx)))
        · intro hs
          refine ⟨hs.1, ?_, hs.2.2⟩
          intro r hr
          rcases List.mem_append.mp hr with h6 | h6
          · exact hs.2.1 r h6
          · rw [List.mem_singleton.mp h6]
            refine ⟨⟨hp1, hp2⟩, ?_⟩
            intro a ha
            rcases ha1 a ha with ⟨q1, q2, -⟩
            exact ⟨q1, q2⟩
        · intro hid hnn
          refine ⟨hnn.1, ?_, hnn.2.2⟩
          intro r hr
          rcases List.mem_append.mp hr with h6 | h6
          · exact hnn.2.1 r h6
          · rw [List.mem_singleton.mp h6]
            refine ⟨hid _ hp3, ?_⟩
            intro a ha
            rcases ha1 a ha with ⟨-, -, q3⟩
            exact hid _ (hpsub _ (List.mem_cons_of_mem _ q3))
      next => exact absurd h (by simp)
    next => exact absurd h (by simp)

/-- The clause loop preserves the one-clause invariants: append-only facts,
rules and queries, the shape invariant, unique dict keys, and no `not`
names when the token list has no `not` identifier. -/
lemma parseClauses_inv : ∀ (fuel : Nat) (st : Program) (toks : List Tok)
    (st' : Program), parseClauses fuel st toks = some st' →
    (∃ fs, st'.facts = st.facts ++ fs) ∧
    (∃ rs, st'.rules = st.rules ++ rs) ∧
    (∃ qs, st'.queries = st.queries ++ qs) ∧
    (storeShapeOk st → storeShapeOk st') ∧
    ((st.predicates.map Prod.fst).Nodup → (st'.predicates.map Prod.fst).Nodup) ∧
    (identOk toks → noNotNames st → noNotNames st') := by
  intro fuel
  induction fuel with
  | zero => intro st toks st' h; exact absurd h (by simp [parseClauses])
  | succ f ih =>
    intro st toks st' h
    cases toks with
    | nil =>
      rw [parseClauses] at h
      obtain rfl : st = st' := Option.some.inj h
      exact ⟨⟨[], by simp⟩, ⟨[], by simp⟩, ⟨[], by simp⟩, fun hs => hs,
        fun hn => hn, fun _ hn => hn⟩
    | cons t ts =>
      rw [parseClauses] at h
      split at h
      next st3 rest heq =>
        obtain ⟨hcsub, ⟨fs1, hcf⟩, ⟨rs1, hcr⟩, ⟨qs1, hcq⟩, hcs, hcn, hcm⟩ :=
          parseClause_inv heq
        obtain ⟨⟨fs2, hif⟩, ⟨rs2, hir⟩, ⟨qs2, hiq⟩, his, hin, him⟩ :=
          ih st3 rest st' h
        refine ⟨⟨fs1 ++ fs2, ?_⟩, ⟨rs1 ++ rs2, ?_⟩, ⟨qs1 ++ qs2, ?_⟩, ?_, ?_, ?_⟩
        · rw [hif, hcf, List.append_assoc]
        · rw [hir, hcr, List.append_assoc]
        · rw [hiq, hcq, List.append_assoc]
        · exact fun hs => his (hcs hs)
        · exact fun hn => hin (hcn hn)
        · intro hid hnn
          exact him (fun s hs => hid s (hcsub _ hs)) (hcm hid hnn)
      next => exact absurd h (by simp)

/-- A successful `parseProgram` factors into a successful lex followed by a
successful clause loop. -/
lemma parseProgram_eq {text : String} {st st' : Program}
    (h : parseProgram text st = some st') :
    ∃ toks, lexer text = some toks ∧
      parseClauses (toks.length + 1) st toks = some st' := by
  unfold parseProgram at h
  split at h
  next toks heq => exact ⟨toks, heq, h⟩
  next => exact absurd h (by simp)

/-- The whole-program invariants: a parse only appends to facts, rules and
queries; preserves the sign/non-empty-arguments shape invariant; keeps the
predicates mapping's keys unique; and never stores the name `not`. -/
lemma parseProgram_inv {text : String} {st st' : Program}
    (h : parseProgram text st = some st') :
    (∃ fs, st'.facts = st.facts ++ fs) ∧
    (∃ rs, st'.rules = st.rules ++ rs) ∧
    (∃ qs, st'.queries = st.queries ++ qs) ∧
    (storeShapeOk st → storeShapeOk st') ∧
    ((st.predicates.map Prod.fst).Nodup → (st'.predicates.map Prod.fst).Nodup) ∧
    (noNotNames st → noNotNames st') := by
  rcases parseProgram_eq h with ⟨toks, hlex, hp⟩
  have hinv := parseClauses_inv _ _ _ _ hp
  exact ⟨hinv.1, hinv.2.1, hinv.2.2.1, hinv.2.2.2.1, hinv.2.2.2.2.1,
    hinv.2.2.2.2.2 (lexer_identOk hlex)⟩

/-! ### Shape of arithmetic Term nodes (operator position) -/

/-- Atoms built by the base case of `p_var_expr` are well-placed. -/
lemma midOpB_varExprAtom (s : String) : midOpB (varExprAtom s) = true := by
  unfold varExprAtom
  split <;> rfl

/-- Operator token values are operator symbols. -/
lemma opSym_mem {t : Tok} {o : String} (h : opSym t = some o) : o ∈ opSyms := by
  cases t <;> cases h <;> simp [opSyms]

/-- `parseAtom` always returns the `p_var_expr` base action applied to some
token value. -/
lemma parseAtom_val {toks : List Tok} {t : Term} {rest : List Tok}
    (h : parseAtom toks = some (t, rest)) : ∃ s, t = varExprAtom s := by
  cases toks with
  | nil => exact absurd h (by simp [parseAtom])
  | cons a as =>
    rw [parseAtom] at h
    split at h
    next s heq =>
      simp only [Option.some.injEq, Prod.mk.injEq] at h
      exact ⟨s, h.1.symm⟩
    next => exact absurd h (by simp)

/-- The operator-chain loop keeps every built node well-placed. -/
lemma parseVarExprLoop_midOp : ∀ (acc : Term) (toks : List Tok),
    midOpB acc = true → midOpB (parseVarExprLoop acc toks).1 = true := by
  intro acc toks
  induction acc, toks using parseVarExprLoop.induct with
  | case1 acc => intro hacc; simpa [parseVarExprLoop] using hacc
  | case2 acc t rest ho => intro hacc; simpa [parseVarExprLoop, ho] using hacc
  | case3 acc t o ho => intro hacc; simpa [parseVarExprLoop, ho] using hacc
  | case4 acc t o ho a rest' s ha ih =>
    intro hacc
    simp only [parseVarExprLoop, ho, ha]
    exact ih (by simp [midOpB, opSym_mem ho, hacc, midOpB_varExprAtom])
  | case5 acc t o ho a rest' ha => intro hacc; simpa [parseVarExprLoop, ho, ha] using hacc

/-- Every Term returned by the `var_expr` parser is built from atoms and
`(left, operator, right)` nodes only. -/
lemma parseVarExpr_midOp {toks : List Tok} {t : Term} {rest : List Tok}
    (h : parseVarExpr toks = some (t, rest)) : midOpB t = true := by
  unfold parseVarExpr at h
  split at h
  next t0 rest0 heq =>
    simp only [Option.some.injEq] at h
    have h1 : (parseVarExprLoop t0 rest0).1 = t := congrArg Prod.fst h
    rw [← h1]
    rcases parseAtom_val heq with ⟨s, rfl⟩
    exact parseVarExprLoop_midOp _ _ (midOpB_varExprAtom s)
  next => exact absurd h (by simp)

/-! ### Rendering of operator chains and antecedent lists, for the
associativity and antecedent-order theorems -/

/-- One loop step on a rendered chain consumes one operator/atom pair and
nests it to the LEFT of the accumulator. -/
lemma chain_step (acc : Term) (v : String) (ps : List (String × String)) :
    ∀ o ∈ opSyms,
      parseVarExprLoop acc (chainTail ((o, v) :: ps)) =
        parseVarExprLoop (Term.tup acc (Term.str o) (varExprAtom v)) (chainTail ps) := by
  intro o ho
  simp only [opSyms, List.mem_cons, List.not_mem_nil, or_false] at ho
  rcases ho with rfl | rfl | rfl | rfl
  · rfl
  · rfl
  · rfl
  · rfl

/-- The operator-chain loop computes a LEFT fold over the chain: with all
four operators in one left-associative precedence tier, yacc reduces before
every shift, so `x op1 v1 op2 v2 …` nests as `((x op1 v1) op2 v2) …`. -/
lemma parseVarExprLoop_chain : ∀ (ps : List (String × String)) (acc : Term),
    (∀ p ∈ ps, p.1 ∈ opSyms) →
    parseVarExprLoop acc (chainTail ps) =
      (ps.foldl (fun a p => Term.tup a (Term.str p.1) (varExprAtom p.2)) acc, []) := by
  intro ps
  induction ps with
  | nil => intro acc _; rfl
  | cons p ps ih =>
    intro acc hp
    obtain ⟨o, v⟩ := p
    rw [chain_step acc v ps o (hp (o, v) (List.mem_cons_self _ _)),
        ih _ (fun q hq => hp q (List.mem_cons_of_mem _ hq)), List.foldl_cons]

/-- `var_expr` parses a rendered chain to the left fold of its operators. -/
lemma parseVarExpr_chain (x : String) (ps : List (String × String))
    (h : ∀ p ∈ ps, p.1 ∈ opSyms) :
    parseVarExpr (chainToks x ps) =
      some (ps.foldl (fun a p => Term.tup a (Term.str p.1) (varExprAtom p.2))
        (varExprAtom x), []) := by
  rw [show parseVarExpr (chainToks x ps)
        = some (parseVarExprLoop (varExprAtom x) (chainTail ps)) from rfl,
      parseVarExprLoop_chain ps (varExprAtom x) h]

/-- A rendered one-argument predicate parses to its literal. -/
lemma parsePredicate_litToks (m : Nat) (n : String) (ts : List Tok) :
    parsePredicate (m + 1) (litToks n ++ ts) = some (mkLit n, ts) := rfl

/-- The single-antecedent case of `p_antecedents`. -/
lemma parseAntecedents_single (f : Nat) (n : String) :
    parseAntecedents (f + 1) (litToks n ++ [Tok.period]) =
      some ([mkLit n], [Tok.period]) := rfl

/-- The recursive case of `p_antecedents`: the head literal is APPENDED
after the copied tail list (`ret = p[3][:]; ret.append(p[1])`). -/
lemma parseAntecedents_step {f : Nat} {ts : List Tok} {tail : List Lit}
    {rest' : List Tok} (h : parseAntecedents f ts = some (tail, rest'))
    (n : String) :
    parseAntecedents (f + 1) (litToks n ++ Tok.comma :: ts) =
      some (tail ++ [mkLit n], rest') := by
  show (match parseAntecedents f ts with
        | some (tail, rest') => some (tail ++ [mkLit n], rest')
        | none => none) = _
  rw [h]

/-- A rendered antecedent list `n1(X), …, nk(X)` parses to the literals in
REVERSE source order `[nk(X), …, n1(X)]`, because each recursive reduction
appends the head predicate after the tail list. -/
lemma parseAntecedents_antesToks : ∀ (names : List String), names ≠ [] →
    ∀ (fuel : Nat), names.length ≤ fuel →
    parseAntecedents fuel (antesToks names ++ [Tok.period]) =
      some ((names.map mkLit).reverse, [Tok.period]) := by
  intro names
  induction names with
  | nil => intro hne; exact absurd rfl hne
  | cons n rest ih =>
    intro _ fuel hlen
    cases fuel with
    | zero => simp at hlen
    | succ f =>
      cases rest with
      | nil =>
        rw [show antesToks [n] = litToks n from rfl, parseAntecedents_single]
        rfl
      | cons m rest' =>
        have hx : antesToks (n :: m :: rest') ++ [Tok.period]
            = litToks n ++ Tok.comma :: (antesToks (m :: rest') ++ [Tok.period]) := by
          rw [show antesToks (n :: m :: rest')
                = litToks n ++ Tok.comma :: antesToks (m :: rest') from rfl]
          simp
        rw [hx, parseAntecedents_step (ih (by simp) f (by
              simp only [List.length_cons] at hlen ⊢
              omega)) n]
        simp

/-! ## Claim theorems -/

/-- Claim C1, counterexample: parsing `c(X) :- a(X), b(X).` stores the rule
with antecedents `[b(X), a(X)]` — the REVERSE of source order — so the Rule
appended to the store is not `(c, [a1, …, an])` in left-to-right order as
the claim states. -/
theorem C1_counterexample :
    (parseProgram "c(X) :- a(X), b(X)." {}).map Program.rules =
      some [(((1 : Int), "c", [Term.str "X"]),
             [((1 : Int), "b", [Term.str "X"]), ((1 : Int), "a", [Term.str "X"])])] ∧
    [((1 : Int), "b", [Term.str "X"]), ((1 : Int), "a", [Term.str "X"])] ≠
      [((1 : Int), "a", [Term.str "X"]), ((1 : Int), "b", [Term.str "X"])] :=
  ⟨by rfl, by decide⟩

/-- Claim C1, amended: for every parsed rule `c :- a1, …, an.`, the Rule
appended to the store is `(c, [an, …, a1])` — the antecedents sequence in
REVERSE source order — because the right-recursive `antecedents` action
copies the tail list and appends the head predicate at its end. -/
theorem C1_amended_antecedents_reversed :
    (∀ (names : List String) (fuel : Nat), names ≠ [] → names.length ≤ fuel →
      parseAntecedents fuel (antesToks names ++ [Tok.period]) =
        some ((names.map mkLit).reverse, [Tok.period])) ∧
    (parseProgram "c(X) :- a(X), b(X)." {}).map Program.rules =
      some [(((1 : Int), "c", [Term.str "X"]),
             [((1 : Int), "b", [Term.str "X"]), ((1 : Int), "a", [Term.str "X"])])] :=
  ⟨fun names fuel h1 h2 => parseAntecedents_antesToks names h1 fuel h2, by rfl⟩

/-- Claim C1, witness for the amended theorem at a three-antecedent list. -/
theorem C1_amended_antecedents_reversed_witness :
    (["a", "b", "c"] : List String) ≠ [] ∧
    parseAntecedents 3 (antesToks ["a", "b", "c"] ++ [Tok.period]) =
      some (((["a", "b", "c"] : List String).map mkLit).reverse, [Tok.period]) :=
  ⟨by decide,
   C1_amended_antecedents_reversed.1 ["a", "b", "c"] 3 (by decide) (by decide)⟩

/-- Claim C2, counterexample: the Term node built for `X + Y` is
`("X", "+", "Y")` — operand, operator, operand — which differs from the
claimed `(operator, left, right)` layout `("+", "X", "Y")`. -/
theorem C2_counterexample :
    (parseProgram "f(X + Y)." {}).map Program.facts =
      some [((1 : Int), "f",
             [Term.tup (Term.str "X") (Term.str "+") (Term.str "Y")])] ∧
    Term.tup (Term.str "X") (Term.str "+") (Term.str "Y") ≠
      Term.tup (Term.str "+") (Term.str "X") (Term.str "Y") :=
  ⟨by rfl, by decide⟩

/-- Claim C2, amended: every arithmetic Term node built during `var_expr`
reduction is the 3-tuple `(left, operator, right)` — the operator symbol in
the MIDDLE position (`p[0] = (p[1], p[2], p[3])`) — for every binary
arithmetic expression in any accepted program. -/
theorem C2_amended_operator_middle :
    (∀ (toks : List Tok) (t : Term) (rest : List Tok),
      parseVarExpr toks = some (t, rest) → midOpB t = true) ∧
    (parseProgram "f(X + Y)." {}).map Program.facts =
      some [((1 : Int), "f",
             [Term.tup (Term.str "X") (Term.str "+") (Term.str "Y")])] :=
  ⟨fun _ _ _ h => parseVarExpr_midOp h, by rfl⟩

/-- Claim C2, witness for the amended theorem on the expression `X + Y`. -/
theorem C2_amended_operator_middle_witness :
    parseVarExpr [Tok.var "X", Tok.plus, Tok.var "Y"] =
      some (Term.tup (Term.str "X") (Term.str "+") (Term.str "Y"), []) ∧
    midOpB (Term.tup (Term.str "X") (Term.str "+") (Term.str "Y")) = true :=
  ⟨by rfl,
   C2_amended_operator_middle.1 [Tok.var "X", Tok.plus, Tok.var "Y"]
     (Term.tup (Term.str "X") (Term.str "+") (Term.str "Y")) [] (by rfl)⟩

/-- Claim C3: `var_expr` parsing is left-associative with `+`, `-`, `%`, `*`
all in one precedence tier — every rendered operator chain parses to the
left fold — and in particular `X + Y * Z` parses to `((X + Y) * Z)` and not
to `(X + (Y * Z))`. -/
theorem C3_left_assoc_single_tier :
    (∀ (x : String) (ps : List (String × String)),
      (∀ p ∈ ps, p.1 ∈ opSyms) →
      parseVarExpr (chainToks x ps) =
        some (ps.foldl (fun a p => Term.tup a (Term.str p.1) (varExprAtom p.2))
          (varExprAtom x), [])) ∧
    (parseProgram "f(X + Y * Z)." {}).map Program.facts =
      some [((1 : Int), "f",
             [Term.tup (Term.tup (Term.str "X") (Term.str "+") (Term.str "Y"))
                (Term.str "*") (Term.str "Z")])] ∧
    Term.tup (Term.tup (Term.str "X") (Term.str "+") (Term.str "Y"))
        (Term.str "*") (Term.str "Z") ≠
      Term.tup (Term.str "X") (Term.str "+")
        (Term.tup (Term.str "Y") (Term.str "*") (Term.str "Z")) :=
  ⟨parseVarExpr_chain, by rfl, by decide⟩

/-- Claim C3, witness for the chain `X + Y * Z` rendered as a token list. -/
theorem C3_left_assoc_single_tier_witness :
    (∀ p ∈ ([("+", "Y"), ("*", "Z")] : List (String × String)), p.1 ∈ opSyms) ∧
    parseVarExpr (chainToks "X" [("+", "Y"), ("*", "Z")]) =
      some (([("+", "Y"), ("*", "Z")] : List (String × String)).foldl
        (fun a p => Term.tup a (Term.str p.1) (varExprAtom p.2))
        (varExprAtom "X"), []) :=
  ⟨by decide, C3_left_assoc_single_tier.1 "X" [("+", "Y"), ("*", "Z")] (by decide)⟩

/-- Claim C4: parsing `likes(Mary, Tom). likes(Tom, Ann). ?likes(Mary, X).`
into an empty store yields exactly the two facts in order, no rules, and the
single query — the query is added only to `queries`, never to `facts` or
`rules`. -/
theorem C4_example_parse :
    parseProgram "likes(Mary, Tom). likes(Tom, Ann). ?likes(Mary, X)." {} =
      some { predicates := [], rules := [],
             facts := [((1 : Int), "likes", [Term.str "Mary", Term.str "Tom"]),
                       ((1 : Int), "likes", [Term.str "Tom", Term.str "Ann"])],
             queries := [("likes", [Term.str "Mary", Term.str "X"])],
             next_variable := 1 } := by rfl

/-- Claim C5: the predicates mapping is last-write-wins — reading a key
back after an update yields the updated arity, other keys are unaffected —
its keys stay unique through any parse, and parsing `f 2. f 3.` leaves
exactly `f ↦ 3`. -/
theorem C5_last_write_wins :
    (∀ (k : String) (v : Nat) (d : List (String × Nat)),
      dictGet k (dictInsert k v d) = some v) ∧
    (∀ (k k' : String) (v : Nat) (d : List (String × Nat)), k' ≠ k →
      dictGet k' (dictInsert k v d) = dictGet k' d) ∧
    (∀ (text : String) (st st' : Program), parseProgram text st = some st' →
      (st.predicates.map Prod.fst).Nodup → (st'.predicates.map Prod.fst).Nodup) ∧
    (parseProgram "f 2. f 3." {}).map Program.predicates = some [("f", 3)] := by
  refine ⟨dictGet_dictInsert_self, dictGet_dictInsert_ne, ?_, by rfl⟩
  intro text st st' h hn
  exact (parseProgram_inv h).2.2.2.2.1 hn

/-- Claim C5, witness: other keys unaffected on a concrete dict, and unique
keys after the concrete redeclaration parse `f 2. f 3.`. -/
theorem C5_last_write_wins_witness :
    dictGet "g" (dictInsert "f" 2 [("g", 7)]) = dictGet "g" [("g", 7)] ∧
    (([("f", 3)] : List (String × Nat)).map Prod.fst).Nodup :=
  ⟨C5_last_write_wins.2.1 "f" "g" 2 [("g", 7)] (by decide),
   C5_last_write_wins.2.2.1 "f 2. f 3." {} { predicates := [("f", 3)] }
     (by rfl) (by simp)⟩

/-- Claim C6: `not f(X).` stores a fact with sign −1 and name `f`;
`f(X).` stores sign +1; and every fact and rule literal produced by a
successful parse from a shape-invariant store has sign exactly +1 or −1. -/
theorem C6_signs :
    (parseProgram "not f(X)." {}).map Program.facts
        = some [((-1 : Int), "f", [Term.str "X"])] ∧
    (parseProgram "f(X)." {}).map Program.facts
        = some [((1 : Int), "f", [Term.str "X"])] ∧
    ∀ (text : String) (st st' : Program), parseProgram text st = some st' →
      storeShapeOk st →
      (∀ l ∈ st'.facts, l.1 = 1 ∨ l.1 = -1) ∧
      ∀ r ∈ st'.rules, (r.1.1 = 1 ∨ r.1.1 = -1) ∧
        ∀ l ∈ r.2, l.1 = 1 ∨ l.1 = -1 := by
  refine ⟨by rfl, by rfl, ?_⟩
  intro text st st' h hs
  have hinv := (parseProgram_inv h).2.2.2.1 hs
  exact ⟨fun l hl => (hinv.1 l hl).1, fun r hr =>
    ⟨((hinv.2.1 r hr).1).1, fun l hl => ((hinv.2.1 r hr).2 l hl).1⟩⟩

/-- Claim C6, witness for the general sign invariant after parsing
`f(X).` from the empty store. -/
theorem C6_signs_witness :
    (∀ l ∈ [((1 : Int), "f", [Term.str "X"])], l.1 = 1 ∨ l.1 = -1) ∧
    ∀ r ∈ ([] : List (Lit × List Lit)), (r.1.1 = 1 ∨ r.1.1 = -1) ∧
      ∀ l ∈ r.2, l.1 = 1 ∨ l.1 = -1 :=
  C6_signs.2.2 "f(X)." {} { facts := [((1 : Int), "f", [Term.str "X"])] }
    (by rfl) storeShapeOk_empty

/-- Claim C7: every parse only appends to the store's facts, rules and
queries, and a second `parseProgram` invocation appends onto the results of
the first instead of starting from an empty store. -/
theorem C7_append_only :
    (∀ (text : String) (st st' : Program), parseProgram text st = some st' →
      (∃ fs, st'.facts = st.facts ++ fs) ∧
      (∃ rs, st'.rules = st.rules ++ rs) ∧
      ∃ qs, st'.queries = st.queries ++ qs) ∧
    (parseProgram "f(1)." {}).map Program.facts
        = some [((1 : Int), "f", [Term.int 1])] ∧
    (parseProgram "f(1)." { facts := [((1 : Int), "f", [Term.int 1])] }).map
        Program.facts
        = some [((1 : Int), "f", [Term.int 1]), ((1 : Int), "f", [Term.int 1])] := by
  refine ⟨?_, by rfl, by rfl⟩
  intro text st st' h
  exact ⟨(parseProgram_inv h).1, (parseProgram_inv h).2.1, (parseProgram_inv h).2.2.1⟩

/-- Claim C7, witness for the append-only property on a concrete parse. -/
theorem C7_append_only_witness :
    (∃ fs, ({ facts := [((1 : Int), "f", [Term.int 1])] } : Program).facts
        = ({} : Program).facts ++ fs) ∧
    (∃ rs, ({ facts := [((1 : Int), "f", [Term.int 1])] } : Program).rules
        = ({} : Program).rules ++ rs) ∧
    ∃ qs, ({ facts := [((1 : Int), "f", [Term.int 1])] } : Program).queries
        = ({} : Program).queries ++ qs :=
  C7_append_only.1 "f(1)." {} { facts := [((1 : Int), "f", [Term.int 1])] } (by rfl)

/-- Claim C8: the store's arithmetic table evaluates `+` to `x + y`, `-` to
`x − y`, `%` to the Python integer remainder `Int.fmod x y` for `y ≠ 0`
(sign of the divisor, Python's `x % y`), and `*` to `int(x * y)`, which for
integer inputs is exactly `x * y`. -/
theorem C8_arithmetic_table :
    ∀ x y : Int,
      applyArith "+" x y = some (x + y) ∧
      applyArith "-" x y = some (x - y) ∧
      applyArith "*" x y = some (x * y) ∧
      (y ≠ 0 → applyArith "%" x y = some (Int.fmod x y)) := by
  intro x y
  refine ⟨rfl, rfl, rfl, fun hy => ?_⟩
  rw [show applyArith "%" x y = if y = 0 then none else some (Int.fmod x y) from rfl,
      if_neg hy]

/-- Claim C8, witness: `7 % (-3)` evaluates to `-2`, as in Python. -/
theorem C8_arithmetic_table_witness :
    (-3 : Int) ≠ 0 ∧ applyArith "%" 7 (-3) = some (-2) :=
  ⟨by decide, ((C8_arithmetic_table 7 (-3)).2.2.2 (by decide)).trans (by decide)⟩

/-- Claim C9: `not(X).` fails to parse, because the lexer reclassifies the
identifier text `not` into the negation-keyword token — no token list the
lexer produces contains an identifier token `not` — and consequently no
stored fact, rule literal or query ever has the name `not`. -/
theorem C9_not_keyword :
    parseProgram "not(X)." {} = none ∧
    (∀ (text : String) (toks : List Tok), lexer text = some toks →
      ∀ s, Tok.ident s ∈ toks → s ≠ "not") ∧
    ∀ (text : String) (st st' : Program), parseProgram text st = some st' →
      noNotNames st → noNotNames st' := by
  refine ⟨by rfl, ?_, ?_⟩
  · intro text toks h
    exact lexer_identOk h
  · intro text st st' h hn
    exact (parseProgram_inv h).2.2.2.2.2 hn

/-- Claim C9, witness: the lexer emits `x` (not `not`) as an identifier in
`not x.`, and parsing `f(X).` from the empty store keeps all names
different from `not`. -/
theorem C9_not_keyword_witness :
    "x" ≠ "not" ∧ noNotNames { facts := [((1 : Int), "f", [Term.str "X"])] } :=
  ⟨C9_not_keyword.2.1 "not x." [Tok.not, Tok.ident "x", Tok.period] (by rfl)
     "x" (by decide),
   C9_not_keyword.2.2 "f(X)." {} { facts := [((1 : Int), "f", [Term.str "X"])] }
     (by rfl) noNotNames_empty⟩

/-- Claim C10: `f().` is rejected as a syntax error — `params` requires at
least one `var_expr` — and every fact, rule consequent, rule antecedent and
query stored by a successful parse from a shape-invariant store has a
non-empty argument sequence. -/
theorem C10_nonempty_params :
    parseProgram "f()." {} = none ∧
    ∀ (text : String) (st st' : Program), parseProgram text st = some st' →
      storeShapeOk st →
      (∀ l ∈ st'.facts, l.2.2 ≠ []) ∧
      (∀ r ∈ st'.rules, r.1.2.2 ≠ [] ∧ ∀ l ∈ r.2, l.2.2 ≠ []) ∧
      ∀ q ∈ st'.queries, q.2 ≠ [] := by
  refine ⟨by rfl, ?_⟩
  intro text st st' h hs
  have hinv := (parseProgram_inv h).2.2.2.1 hs
  exact ⟨fun l hl => (hinv.1 l hl).2, fun r hr =>
    ⟨((hinv.2.1 r hr).1).2, fun l hl => ((hinv.2.1 r hr).2 l hl).2⟩, hinv.2.2⟩

/-- Claim C10, witness for the non-empty-arguments invariant after parsing
`f(X).` from the empty store. -/
theorem C10_nonempty_params_witness :
    (∀ l ∈ [((1 : Int), "f", [Term.str "X"])], l.2.2 ≠ []) ∧
    (∀ r ∈ ([] : List (Lit × List Lit)), r.1.2.2 ≠ [] ∧ ∀ l ∈ r.2, l.2.2 ≠ []) ∧
    ∀ q ∈ ([] : List (String × List Term)), q.2 ≠ [] :=
  C10_nonempty_params.2 "f(X)." {} { facts := [((1 : Int), "f", [Term.str "X"])] }
    (by rfl) storeShapeOk_empty

end Prolame
